import Mathlib

/-!
Verification of the chess core in `chess.go` (package main of
dronavallipranav/dumb-chess) against its natural-language specification.

The Go source is shallowly embedded: pieces are `Char` byte tags, the
120-cell mailbox board is a function `Fin 120 → Piece`, positions are an
immutable structure, and the move generator / move applier / searcher are
transcribed function by function.  Go array reads `b[j]` panic when `j`
is outside `0..119`; the embedding's `Board.read` returns the off-board
sentinel `' '` there instead, which terminates every scan exactly where
the Go program would have to be given a well-formed board (the sentinel
border makes out-of-range reads unreachable); `Board.write` outside the
range is a no-op, and the FEN parser models the possible out-of-range
write explicitly as `none` (a Go panic).  Go's `int` is embedded as `Int`
(`Int.tdiv` is Go's truncating `/`), and the unbounded generator loop
gets explicit fuel of 120 steps, more than any ray inside a 120-cell
array can take.  Go switches on a `Piece` are if-chains on `Char`.
-/

/-- A piece is a single byte tag, as in Go (`type Piece byte`). -/
abbrev Piece := Char

namespace Piece

/-- Go `Piece.value`: material value of an own (uppercase) piece, 0 for
anything else. -/
def value (p : Piece) : Int :=
  if p = 'P' then 100
  else if p = 'N' then 280
  else if p = 'B' then 320
  else if p = 'R' then 479
  else if p = 'Q' then 929
  else if p = 'K' then 60000
  else 0

/-- Go `Piece.ours`: the piece belongs to the side to move
(`p.value() > 0`). -/
def ours (p : Piece) : Bool :=
  decide (0 < value p)

/-- Go `Piece.Flip`: change the case of the piece. -/
def flip (p : Piece) : Piece :=
  if p = 'P' then 'p'
  else if p = 'N' then 'n'
  else if p = 'B' then 'b'
  else if p = 'R' then 'r'
  else if p = 'Q' then 'q'
  else if p = 'K' then 'k'
  else if p = 'p' then 'P'
  else if p = 'n' then 'N'
  else if p = 'b' then 'B'
  else if p = 'r' then 'R'
  else if p = 'q' then 'Q'
  else if p = 'k' then 'K'
  else p

/-- The twelve case-bearing piece tags. -/
def caseTags : List Piece :=
  ['P', 'N', 'B', 'R', 'Q', 'K', 'p', 'n', 'b', 'r', 'q', 'k']

end Piece

/-- Go `type Board [120]Piece`. -/
abbrev Board := Fin 120 → Piece

namespace Board

/-- Go `a.Flip()`: reverse the cell order and flip each piece's case
(`b[i] = a[119-i].Flip()`). -/
def flip (a : Board) : Board :=
  fun i => Piece.flip (a i.rev)

/-- Go array read `a[j]` for a square given as an integer.  Go panics
outside `0..119`; the embedding returns the off-board sentinel there. -/
def read (a : Board) (j : Int) : Piece :=
  if h : 0 ≤ j ∧ j < 120 then a ⟨j.toNat, by omega⟩ else ' '

/-- Go array write `a[j] = c`.  Go panics outside `0..119`; the embedding
leaves the board unchanged there. -/
def write (a : Board) (j : Int) (c : Piece) : Board :=
  if h : 0 ≤ j ∧ j < 120 then Function.update a ⟨j.toNat, by omega⟩ c else a

end Board

/-- Go `const A1 Square = 91`. -/
def A1 : Int := 91

/-- Go `const H1 Square = 98`. -/
def H1 : Int := 98

/-- Go `const A8 Square = 21`. -/
def A8 : Int := 21

/-- Go `const H8 Square = 28`. -/
def H8 : Int := 28

/-- Go `const N = -10` (one rank up on the 10-wide mailbox). -/
def N : Int := -10

/-- Go `const E = 1`. -/
def E : Int := 1

/-- Go `const S = 10`. -/
def S : Int := 10

/-- Go `const W = -1`. -/
def W : Int := -1

/-- Go `type Move struct { from, to Square }` (`from` and `to` are Lean
keywords, so the fields are `from_` and `to_`). -/
structure Move where
  from_ : Int
  to_ : Int
deriving DecidableEq, Repr

/-- Go `type Position struct`: board, score, the two castling-right pairs
(`wc`, `bc`), the en-passant square `ep` and the king-passant square
`kp`. -/
structure Position where
  board : Board
  score : Int
  wc : Bool × Bool
  bc : Bool × Bool
  ep : Int
  kp : Int

namespace Position

/-- Go `pos.Flip()`: negate the score, swap the castling pairs, flip the
en-passant and king-passant squares (`Square.Flip(s) = 119 - s`), flip
the board. -/
def flip (pos : Position) : Position :=
  { board := Board.flip pos.board
    score := -pos.score
    wc := pos.bc
    bc := pos.wc
    ep := 119 - pos.ep
    kp := 119 - pos.kp }

end Position

/-- The `directions` map in Go `Position.Moves`: the step directions of
each piece kind. -/
def pieceDirs (p : Piece) : List Int :=
  if p = 'P' then [N, N + N, N + W, N + E]
  else if p = 'N' then
    [N + N + E, E + N + E, E + S + E, S + S + E, S + S + W, W + S + W, W + N + W, N + N + W]
  else if p = 'B' then [N + E, S + E, S + W, N + W]
  else if p = 'R' then [N, E, S, W]
  else if p = 'Q' then [N, E, S, W, N + E, S + E, S + W, N + W]
  else if p = 'K' then [N, E, S, W, N + E, S + E, S + W, N + W]
  else []

/-- The inner `for j := i + d; ; j = j + d` scan of Go `Position.Moves`
for the piece `p` standing on `i`, walking direction `d` from square `j`:
stop on the sentinel or an own piece, apply the pawn-specific rules, emit
`Move{i, j}`, stop crawling pieces and capturing sliders, emit the two
castling by-products of scanning from a rook home corner, and continue.
The fuel (120 at the top level) only bounds the loop, which in Go ends
within 120 steps on every board whose reads stay in range. -/
def rayMoves (pos : Position) (p : Piece) (i d : Int) : Nat → Int → List Move
  | 0, _ => []
  | fuel + 1, j =>
    let q := Board.read pos.board j
    if q = ' ' ∨ (q ≠ '.' ∧ Piece.ours q = true) then []
    else if p = 'P' ∧ (d = N ∨ d = N + N) ∧ q ≠ '.' then []
    else if p = 'P' ∧ d = N + N ∧ (i < A1 + N ∨ Board.read pos.board (i + N) ≠ '.') then []
    else if p = 'P' ∧ (d = N + W ∨ d = N + E) ∧ q = '.' ∧
        j ≠ pos.ep ∧ j ≠ pos.kp ∧ j ≠ pos.kp - 1 ∧ j ≠ pos.kp + 1 then []
    else
      Move.mk i j ::
        (if p = 'P' ∨ p = 'N' ∨ p = 'K' ∨ (q ≠ ' ' ∧ q ≠ '.' ∧ Piece.ours q = false) then []
         else
           (if i = A1 ∧ Board.read pos.board (j + E) = 'K' ∧ pos.wc.1 = true then
              [Move.mk (j + E) (j + W)]
            else []) ++
           (if i = H1 ∧ Board.read pos.board (j + W) = 'K' ∧ pos.wc.2 = true then
              [Move.mk (j + W) (j + E)]
            else []) ++
           rayMoves pos p i d fuel (j + d))

/-- Go `pos.Moves()`: for every cell holding an own piece, scan all of
that piece's directions. -/
def Position.moves (pos : Position) : List Move :=
  (List.range 120).flatMap fun index =>
    let p := Board.read pos.board index
    if Piece.ours p = true then
      (pieceDirs p).flatMap fun d => rayMoves pos p index d 120 (index + d)
    else []

/-- The 120-entry piece-square table for 'P' in Go `Position.value`. -/
def pstP : List Int := [
  0, 0, 0, 0, 0, 0, 0, 0, 0, 0, 0, 0,
  0, 0, 0, 0, 0, 0, 0, 0, 0, 0, 0, 0,
  0, 0, 0, 0, 0, 0, 0, 178, 183, 186, 173, 202,
  182, 185, 190, 0, 0, 107, 129, 121, 144, 140, 131, 144,
  107, 0, 0, 83, 116, 98, 115, 114, 0, 115, 87, 0,
  0, 74, 103, 110, 109, 106, 101, 0, 77, 0, 0, 78,
  109, 105, 89, 90, 98, 103, 81, 0, 0, 69, 108, 93,
  63, 64, 86, 103, 69, 0, 0, 0, 0, 0, 0, 0,
  0, 0, 0, 0, 0, 0, 0, 0, 0, 0, 0, 0,
  0, 0, 0, 0, 0, 0, 0, 0, 0, 0, 0, 0]

/-- The 120-entry piece-square table for 'N' in Go `Position.value`. -/
def pstN : List Int := [
  0, 0, 0, 0, 0, 0, 0, 0, 0, 0, 0, 0,
  0, 0, 0, 0, 0, 0, 0, 0, 0, 214, 227, 205,
  205, 270, 225, 222, 210, 0, 0, 277, 274, 380, 244, 284,
  342, 276, 266, 0, 0, 290, 347, 281, 354, 353, 307, 342,
  278, 0, 0, 304, 304, 325, 317, 313, 321, 305, 297, 0,
  0, 279, 285, 311, 301, 302, 315, 282, 0, 0, 0, 262,
  290, 293, 302, 298, 295, 291, 266, 0, 0, 257, 265, 282,
  0, 282, 0, 257, 260, 0, 0, 206, 257, 254, 256, 261,
  245, 258, 211, 0, 0, 0, 0, 0, 0, 0, 0, 0,
  0, 0, 0, 0, 0, 0, 0, 0, 0, 0, 0, 0]

/-- The 120-entry piece-square table for 'B' in Go `Position.value`. -/
def pstB : List Int := [
  0, 0, 0, 0, 0, 0, 0, 0, 0, 0, 0, 0,
  0, 0, 0, 0, 0, 0, 0, 0, 0, 261, 242, 238,
  244, 297, 213, 283, 270, 0, 0, 309, 340, 355, 278, 281,
  351, 322, 298, 0, 0, 311, 359, 288, 361, 372, 310, 348,
  306, 0, 0, 345, 337, 340, 354, 346, 345, 335, 330, 0,
  0, 333, 330, 337, 343, 337, 336, 0, 327, 0, 0, 334,
  345, 344, 335, 328, 345, 340, 335, 0, 0, 339, 340, 331,
  326, 327, 326, 340, 336, 0, 0, 313, 322, 305, 308, 306,
  305, 310, 310, 0, 0, 0, 0, 0, 0, 0, 0, 0,
  0, 0, 0, 0, 0, 0, 0, 0, 0, 0, 0, 0]

/-- The 120-entry piece-square table for 'R' in Go `Position.value`. -/
def pstR : List Int := [
  0, 0, 0, 0, 0, 0, 0, 0, 0, 0, 0, 0,
  0, 0, 0, 0, 0, 0, 0, 0, 0, 514, 508, 512,
  483, 516, 512, 535, 529, 0, 0, 534, 508, 535, 546, 534,
  541, 513, 539, 0, 0, 498, 514, 507, 512, 524, 506, 504,
  494, 0, 0, 0, 484, 495, 492, 497, 475, 470, 473, 0,
  0, 451, 444, 463, 458, 466, 450, 433, 449, 0, 0, 437,
  451, 437, 454, 454, 444, 453, 433, 0, 0, 426, 441, 448,
  453, 450, 436, 435, 426, 0, 0, 449, 455, 461, 484, 477,
  461, 448, 447, 0, 0, 0, 0, 0, 0, 0, 0, 0,
  0, 0, 0, 0, 0, 0, 0, 0, 0, 0, 0, 0]

/-- The 120-entry piece-square table for 'Q' in Go `Position.value`. -/
def pstQ : List Int := [
  0, 0, 0, 0, 0, 0, 0, 0, 0, 0, 0, 0,
  0, 0, 0, 0, 0, 0, 0, 0, 0, 935, 930, 921,
  825, 998, 953, 1017, 955, 0, 0, 943, 961, 989, 919, 949,
  1005, 986, 953, 0, 0, 927, 972, 961, 989, 1001, 992, 972,
  931, 0, 0, 930, 913, 951, 946, 954, 949, 916, 923, 0,
  0, 915, 914, 927, 924, 928, 919, 909, 907, 0, 0, 899,
  923, 916, 918, 913, 918, 913, 902, 0, 0, 893, 911, 0,
  910, 914, 914, 908, 891, 0, 0, 890, 899, 898, 916, 898,
  893, 895, 887, 0, 0, 0, 0, 0, 0, 0, 0, 0,
  0, 0, 0, 0, 0, 0, 0, 0, 0, 0, 0, 0]

/-- The 120-entry piece-square table for 'K' in Go `Position.value`. -/
def pstK : List Int := [
  0, 0, 0, 0, 0, 0, 0, 0, 0, 0, 0, 0,
  0, 0, 0, 0, 0, 0, 0, 0, 0, 60004, 60054, 60047,
  59901, 59901, 60060, 60083, 59938, 0, 0, 59968, 60010, 60055, 60056, 60056,
  60055, 60010, 60003, 0, 0, 59938, 60012, 59943, 60044, 59933, 60028, 60037,
  59969, 0, 0, 59945, 60050, 60011, 59996, 59981, 60013, 0, 59951, 0,
  0, 59945, 59957, 59948, 59972, 59949, 59953, 59992, 59950, 0, 0, 59953,
  59958, 59957, 59921, 59936, 59968, 59971, 59968, 0, 0, 59996, 60003, 59986,
  59950, 59943, 59982, 60013, 60004, 0, 0, 60017, 60030, 59997, 59986, 60006,
  59999, 60040, 60018, 0, 0, 0, 0, 0, 0, 0, 0, 0,
  0, 0, 0, 0, 0, 0, 0, 0, 0, 0, 0, 0]


/-- Go `pst[p][j]` in `Position.value`: piece-square lookup.  The Go map's
zero-value array makes the lookup 0 for any non-key piece; an index
outside `0..119` panics in Go and is 0 here (every verified use stays in
range). -/
def pst (p : Piece) (j : Int) : Int :=
  if 0 ≤ j ∧ j < 120 then
    (if p = 'P' then pstP
     else if p = 'N' then pstN
     else if p = 'B' then pstB
     else if p = 'R' then pstR
     else if p = 'Q' then pstQ
     else if p = 'K' then pstK
     else []).getD j.toNat 0
  else 0

/-- Go `pos.value(m)`: the incremental score delta of applying `m`:
piece-square difference of the mover, mirrored piece-square value of a
captured piece, the king-passant proximity bonus, the rook adjustment on
castling, and the promotion and en-passant pawn adjustments. -/
def Position.value (pos : Position) (m : Move) : Int :=
  let i := m.from_
  let j := m.to_
  let p := Board.read pos.board i
  let q := Board.read pos.board j
  let s1 := pst p j - pst p i
  let s2 := if q ≠ '.' ∧ q ≠ ' ' ∧ Piece.ours q = false then
      s1 + pst (Piece.flip q) (119 - j)
    else s1
  let s3 := if |j - pos.kp| < 2 then s2 + pst 'K' (119 - j) else s2
  let s4 := if p = 'K' ∧ |i - j| = 2 then
      s3 + pst 'R' (Int.tdiv (i + j) 2) - (if j < i then pst 'R' A1 else pst 'R' H1)
    else s3
  let s5 := if p = 'P' ∧ A8 ≤ j ∧ j ≤ H8 then s4 + pst 'Q' j - pst 'P' j else s4
  let s6 := if p = 'P' ∧ j = pos.ep then s5 + pst 'P' (119 - (j + S)) else s5
  s6

/-- Go `pos.Move(m)`: copy the position, reset `ep` and `kp`, add the
incremental score delta, move the piece, update the castling rights,
relocate the rook on a two-square king move, promote, record a pawn
double-step's en-passant square, remove an en-passant-captured pawn, and
flip for the opponent. -/
def Position.move (pos : Position) (m : Move) : Position :=
  let i := m.from_
  let j := m.to_
  let p := Board.read pos.board i
  let b1 := Board.write (Board.write pos.board j (Board.read pos.board i)) i '.'
  let wc1 := ((if p = 'K' then false else if i = A1 then false else pos.wc.1),
              (if p = 'K' then false else if i = H1 then false else pos.wc.2))
  let bc1 := ((if j = H8 then false else pos.bc.1),
              (if j = A8 then false else pos.bc.2))
  let b2 := if p = 'K' ∧ |j - i| = 2 then
      Board.write (Board.write b1 (if j < i then H1 else A1) '.') (Int.tdiv (i + j) 2) 'R'
    else b1
  let b3 := if p = 'P' then
      let bq := if A8 ≤ j ∧ j ≤ H8 then Board.write b2 j 'Q' else b2
      if j = pos.ep then Board.write bq (j + S) '.' else bq
    else b2
  let ep1 := if p = 'P' ∧ j - i = 2 * N then i + N else 0
  Position.flip
    { board := b3
      score := pos.score + Position.value pos m
      wc := wc1
      bc := bc1
      ep := ep1
      kp := 0 }

/-- Go `MateValue = Piece('K').value() + 10*Piece('Q').value()`. -/
def MateValue : Int := Piece.value 'K' + 10 * Piece.value 'Q'

/-- Go `Searcher.bound` with the depth as structural fuel: fuel 0 is the
`depth <= 0` base case; otherwise fold the Go move loop over the
generated moves, threading the minimum score seen, the move achieving it
and the node counter.  (The Go `tp` cache field is never consulted by
`bound`, so it has no counterpart here.) -/
def boundFuel : Nat → Position → Int → Nat → Int × Move × Nat
  | 0, pos, _, nodes => (pos.score, Move.mk 0 0, nodes + 1)
  | fuel + 1, pos, gamma, nodes =>
    (Position.moves pos).foldl
      (fun st m =>
        let r := boundFuel fuel (Position.move pos m) st.1 st.2.2
        if r.1 < st.1 then (r.1, m, r.2.2) else (st.1, st.2.1, r.2.2))
      (gamma, Move.mk 0 0, nodes + 1)

/-- Go `s.bound(pos, gamma, depth)`: `(score, move, nodes)` where `nodes`
is the counter `s.nodes` after the call, threaded explicitly in place of
Go's mutable field; `s.nodes++` happens before the depth check, so both
branches count one node for the call itself. -/
def bound (pos : Position) (gamma depth : Int) (nodes : Nat) : Int × Move × Nat :=
  boundFuel depth.toNat pos gamma nodes

/-- The iterative deepening loop of Go `Searcher.Search`
(`for depth := 1; depth < 99; depth++`), with `fuel = 99 - depth`
iterations left: run `bound`, keep its move, stop once the node counter
has reached the budget. -/
def searchStep (pos : Position) (maxNodes : Int) : Nat → Nat → Move → Nat → Move
  | 0, _, wm, _ => wm
  | fuel + 1, depth, _, nodes =>
    let r := bound pos (3 * MateValue) (depth : Int) nodes
    if maxNodes ≤ (r.2.2 : Int) then r.2.1
    else searchStep pos maxNodes fuel (depth + 1) r.2.1 r.2.2

/-- Go `s.Search(pos, maxNodes)`: reset the node counter, iteratively
deepen from depth 1, return the move of the latest depth run. -/
def Search (pos : Position) (maxNodes : Int) : Move :=
  searchStep pos maxNodes 98 1 (Move.mk 0 0) 0

/-- The node counter after `Search`'s loop has run `bound` at depths
`1..d`, each with the reset window `3*MateValue`, starting from 0. -/
def cumNodes (pos : Position) : Nat → Nat
  | 0 => 0
  | d + 1 => (bound pos (3 * MateValue) ((d : Int) + 1) (cumNodes pos d)).2.2

/-- The move `bound` returns at depth `d ≥ 1` of `Search`'s loop, with
the node counter the loop holds at that point. -/
def depthMove (pos : Position) (d : Nat) : Move :=
  (bound pos (3 * MateValue) (d : Int) (cumNodes pos (d - 1))).2.1

/-- Claim-side restatement of the Go `bound` move loop: iterate the
generated moves, recursively bound each successor at depth `d` with the
current minimum as the target bound passed down, and keep the minimum
score seen together with the last move that achieved it. -/
def boundRec (pos : Position) (d : Int) : List Move → Int → Move → Nat → Int × Move × Nat
  | [], ws, wm, nodes => (ws, wm, nodes)
  | m :: ms, ws, wm, nodes =>
    let r := bound (Position.move pos m) ws d nodes
    if r.1 < ws then boundRec pos d ms r.1 m r.2.2
    else boundRec pos d ms ws wm r.2.2

/-- A sequence of moves applied through `Position.Move`. -/
def applyMoves (pos : Position) (ms : List Move) : Position :=
  ms.foldl Position.move pos

/-- The square `j` lies inside the 8x8 playing area of the mailbox. -/
def onBoard (j : Int) : Prop :=
  21 ≤ j ∧ j ≤ 98 ∧ 1 ≤ j % 10 ∧ j % 10 ≤ 8

instance : DecidablePred onBoard := fun j => by
  unfold onBoard
  infer_instance

/-- The board carries the off-board sentinel on every cell outside the
playing area (in particular all its own pieces lie inside it). -/
def wellFormed (pos : Position) : Prop :=
  ∀ i : Fin 120, ¬onBoard ((i : Nat) : Int) → pos.board i = ' '

instance : DecidablePred wellFormed := fun pos => by
  unfold wellFormed
  infer_instance

/-- The source's enemy-occupancy test `q != ' ' && q != '.' && !q.ours()`:
the destination holds a piece of the other side. -/
def capturable (q : Piece) : Prop :=
  q ≠ ' ' ∧ q ≠ '.' ∧ Piece.ours q = false

instance : DecidablePred capturable := fun q => by
  unfold capturable
  infer_instance

/-- Modelled on the spec's "full piece-square-table rescan": what the cell
`idx` holding `q` contributes to a from-scratch static evaluation, from
the side to move's point of view — own pieces add their `pst` entry,
pieces of the other side subtract theirs looked up in the flipped
orientation (the source's `pst[q.Flip()][j.Flip()]` convention), empty
and off-board cells add nothing. -/
def contrib (q : Piece) (idx : Int) : Int :=
  if Piece.ours q = true then pst q idx
  else if q ≠ '.' ∧ q ≠ ' ' then -pst (Piece.flip q) (119 - idx)
  else 0

/-- The spec's full board rescan: sum the contributions of all 120
cells. -/
def staticScore (b : Board) : Int :=
  ∑ i : Fin 120, contrib (b i) ((i : Nat) : Int)

/-- The inner digit loop of Go `FEN`: fill `cnt` empty cells from
`index`; `none` is Go's out-of-range panic. -/
def fenFill (b : Board) (index cnt : Nat) : Option (Board × Nat) :=
  match cnt with
  | 0 => some (b, index)
  | c + 1 =>
    if index < 120 then fenFill (Board.write b (index : Int) '.') (index + 1) c else none

/-- One row of Go `FEN`: digits expand to empty cells, valid piece
letters are written, anything else is the descriptive error; `none` is a
panic. -/
def fenRow (b : Board) (index : Nat) : List Char → Option (Except String (Board × Nat))
  | [] => some (Except.ok (b, index))
  | c :: rest =>
    if '1' ≤ c ∧ c ≤ '8' then
      match fenFill b index (c.toNat - '0'.toNat) with
      | none => none
      | some (b2, index2) => fenRow b2 index2 rest
    else if Piece.value c = 0 ∧ Piece.value (Piece.flip c) = 0 then
      some (Except.error ("invalid piece value: " ++ String.singleton c))
    else if index < 120 then fenRow (Board.write b (index : Int) c) (index + 1) rest
    else none

/-- The per-row loop of Go `FEN`: row `i` starts at `index = i*10 + 21`
and must end with `index%10 == 9`. -/
def fenRows (b : Board) (i : Nat) : List (List Char) → Option (Except String Board)
  | [] => some (Except.ok b)
  | row :: rest =>
    match fenRow b (i * 10 + 21) row with
    | none => none
    | some (Except.error e) => some (Except.error e)
    | some (Except.ok (b2, index2)) =>
      if index2 % 10 ≠ 9 then some (Except.error "invalid row length")
      else fenRows b2 (i + 1) rest

/-- Go `FEN(fen string)`: split on blanks, split the first part on
slashes, check for 8 rows, fill the board row by row over an all-blank
board, and flip when the second part is "b".  `some (Except.ok b)` and
`some (Except.error e)` are Go's two returns; `none` is a Go panic (an
out-of-range board write). -/
def FEN (fen : List Char) : Option (Except String Board) :=
  let parts := List.splitOn ' ' fen
  let rows := List.splitOn '/' (parts.headD [])
  if rows.length ≠ 8 then some (Except.error "FEN should have 8 rows")
  else
    match fenRows (fun _ => ' ') 0 rows with
    | none => none
    | some (Except.error e) => some (Except.error e)
    | some (Except.ok b) =>
      some (Except.ok (if 1 < parts.length ∧ parts.getD 1 [] = ['b'] then Board.flip b else b))

/-- Example board: a white pawn on e2 (cell 85), a black pawn on d3
(cell 74), the playing area otherwise empty, the sentinel border
intact. -/
def boardA : Board :=
  fun i =>
    if (i : Nat) = 85 then 'P'
    else if (i : Nat) = 74 then 'p'
    else if 21 ≤ (i : Nat) ∧ (i : Nat) ≤ 98 ∧ 1 ≤ (i : Nat) % 10 ∧ (i : Nat) % 10 ≤ 8 then '.'
    else ' '

/-- Example position over `boardA`, its score set to the full rescan
value. -/
def posA : Position :=
  { board := boardA
    score := staticScore boardA
    wc := (true, true)
    bc := (true, true)
    ep := 0
    kp := 0 }

/-- Example board: a white rook on a1 (cell 91) and a white king on e1
(cell 95), the playing area otherwise empty. -/
def boardB : Board :=
  fun i =>
    if (i : Nat) = 91 then 'R'
    else if (i : Nat) = 95 then 'K'
    else if 21 ≤ (i : Nat) ∧ (i : Nat) ≤ 98 ∧ 1 ≤ (i : Nat) % 10 ∧ (i : Nat) % 10 ≤ 8 then '.'
    else ' '

/-- Example position over `boardB`, both castling rights intact. -/
def posB : Position :=
  { board := boardB
    score := 0
    wc := (true, true)
    bc := (true, true)
    ep := 0
    kp := 0 }

theorem piece_flip_default (p : Piece) (h : p ∉ Piece.caseTags) :
    Piece.flip p = p := by
  simp only [Piece.caseTags, List.mem_cons, List.not_mem_nil, or_false, not_or] at h
  obtain ⟨h1, h2, h3, h4, h5, h6, h7, h8, h9, h10, h11, h12⟩ := h
  unfold Piece.flip
  rw [if_neg h1, if_neg h2, if_neg h3, if_neg h4, if_neg h5, if_neg h6,
    if_neg h7, if_neg h8, if_neg h9, if_neg h10, if_neg h11, if_neg h12]

theorem piece_flip_flip (p : Piece) : Piece.flip (Piece.flip p) = p := by
  by_cases h : p ∈ Piece.caseTags
  · fin_cases h <;> decide
  · have hfix := piece_flip_default p h
    rw [hfix, hfix]

theorem board_flip_flip (a : Board) : Board.flip (Board.flip a) = a := by
  funext i
  simp [Board.flip, Fin.rev_rev, piece_flip_flip]

/-- Claim C4: `Flip` is an involution, on boards and on positions: the
board, score, both castling-right pairs, en-passant square and the
king-passant square are all restored by flipping twice. -/
theorem c4_flip_involution :
    (∀ a : Board, Board.flip (Board.flip a) = a) ∧
    (∀ pos : Position, Position.flip (Position.flip pos) = pos) := by
  refine ⟨board_flip_flip, ?_⟩
  intro pos
  cases pos with
  | mk board score wc bc ep kp =>
    simp [Position.flip, board_flip_flip]

/-- Claim C5 (amended): after any move, the returned position's
en-passant target is 119 — the flipped image `Square.Flip(0)` of the
cleared value 0, which no pawn-capture destination can equal — unless the
moved piece is a pawn making a double step (`m.to - m.from = 2*N`), in
which case it is the intermediate square expressed in the flipped
orientation, `119 - (m.from + N)`. -/
theorem c5_ep_after_move : ∀ (pos : Position) (m : Move),
    (Position.move pos m).ep =
      (if Board.read pos.board m.from_ = 'P' ∧ m.to_ - m.from_ = 2 * N then
        119 - (m.from_ + N)
      else 119) := by
  intro pos m
  simp only [Position.move, Position.flip]
  split <;> simp

/-- Claim C5, as stated, fails on the code: the pawn move 85 → 75 of
`posA` is generated and is no double step, yet the successor's en-passant
target is not the claimed 'none' value 0 (it is 119, the flip of 0). -/
theorem c5_counterexample :
    Move.mk 85 75 ∈ Position.moves posA ∧
    Board.read posA.board 85 = 'P' ∧
    ¬((85 : Int) - 75 = 2 * N ∨ (75 : Int) - 85 = 2 * N) ∧
    (Position.move posA (Move.mk 85 75)).ep ≠ 0 := by
  decide

/-- Claim C9 fails on the code: on the input `8/8/8/8/8/8/8/8888` —
syntactically a FEN whose last row encodes 32 cells — Go `FEN` writes
`b[120]` and panics (modelled as `none`) instead of returning the
descriptive "invalid row length" error. -/
theorem c9_fen_panics : FEN (String.toList "8/8/8/8/8/8/8/8888") = none := by
  rfl

theorem move_rights_le (pos : Position) (m : Move) :
    ((Position.move pos m).wc.1 ≤ pos.bc.1) ∧
    ((Position.move pos m).wc.2 ≤ pos.bc.2) ∧
    ((Position.move pos m).bc.1 ≤ pos.wc.1) ∧
    ((Position.move pos m).bc.2 ≤ pos.wc.2) := by
  simp only [Position.move, Position.flip]
  split_ifs <;> simp

theorem applyMoves_rights (ms : List Move) : ∀ pos : Position,
    ((applyMoves pos ms).wc.1 ≤ (if Even ms.length then pos.wc.1 else pos.bc.1)) ∧
    ((applyMoves pos ms).wc.2 ≤ (if Even ms.length then pos.wc.2 else pos.bc.2)) ∧
    ((applyMoves pos ms).bc.1 ≤ (if Even ms.length then pos.bc.1 else pos.wc.1)) ∧
    ((applyMoves pos ms).bc.2 ≤ (if Even ms.length then pos.bc.2 else pos.wc.2)) := by
  induction ms with
  | nil => intro pos; simp [applyMoves]
  | cons m ms ih =>
    intro pos
    have hstep := move_rights_le pos m
    have htail := ih (Position.move pos m)
    have hfold : applyMoves pos (m :: ms) = applyMoves (Position.move pos m) ms := rfl
    rw [hfold]
    by_cases he : Even ms.length
    · have hodd : ¬Even (m :: ms).length := by
        simp [List.length_cons, Nat.even_add_one, he]
      rw [if_pos he, if_pos he, if_pos he, if_pos he] at htail
      rw [if_neg hodd, if_neg hodd, if_neg hodd, if_neg hodd]
      exact ⟨le_trans htail.1 hstep.1, le_trans htail.2.1 hstep.2.1,
        le_trans htail.2.2.1 hstep.2.2.1, le_trans htail.2.2.2 hstep.2.2.2⟩
    · have heven : Even (m :: ms).length := by
        simp [List.length_cons, Nat.even_add_one, he]
      rw [if_neg he, if_neg he, if_neg he, if_neg he] at htail
      rw [if_pos heven, if_pos heven, if_pos heven, if_pos heven]
      exact ⟨le_trans htail.1 hstep.2.2.1, le_trans htail.2.1 hstep.2.2.2,
        le_trans htail.2.2.1 hstep.1, le_trans htail.2.2.2 hstep.2.1⟩

/-- Claim C6: castling rights are monotone.  Along any sequence of moves
applied through `Position.Move`, each of the four castling-right flags of
a later position implies the corresponding flag of the earlier position —
the correspondence swaps the own and opponent pairs once per ply, as
`Flip` does — so a revoked right is never restored. -/
theorem c6_castling_monotone : ∀ (pos : Position) (ms₁ ms₂ : List Move),
    ((applyMoves pos (ms₁ ++ ms₂)).wc.1 ≤
      (if Even ms₂.length then (applyMoves pos ms₁).wc.1 else (applyMoves pos ms₁).bc.1)) ∧
    ((applyMoves pos (ms₁ ++ ms₂)).wc.2 ≤
      (if Even ms₂.length then (applyMoves pos ms₁).wc.2 else (applyMoves pos ms₁).bc.2)) ∧
    ((applyMoves pos (ms₁ ++ ms₂)).bc.1 ≤
      (if Even ms₂.length then (applyMoves pos ms₁).bc.1 else (applyMoves pos ms₁).wc.1)) ∧
    ((applyMoves pos (ms₁ ++ ms₂)).bc.2 ≤
      (if Even ms₂.length then (applyMoves pos ms₁).bc.2 else (applyMoves pos ms₁).wc.2)) := by
  intro pos ms₁ ms₂
  have happ : applyMoves pos (ms₁ ++ ms₂) = applyMoves (applyMoves pos ms₁) ms₂ := by
    simp [applyMoves, List.foldl_append]
  rw [happ]
  exact applyMoves_rights ms₂ (applyMoves pos ms₁)

theorem boundFuel_foldl_eq_boundRec (pos : Position) (fuel : Nat) (d : Int)
    (hd : d.toNat = fuel) :
    ∀ (ms : List Move) (ws : Int) (wm : Move) (nodes : Nat),
      ms.foldl
        (fun st m =>
          let r := boundFuel fuel (Position.move pos m) st.1 st.2.2
          if r.1 < st.1 then (r.1, m, r.2.2) else (st.1, st.2.1, r.2.2))
        (ws, wm, nodes) =
      boundRec pos d ms ws wm nodes := by
  intro ms
  induction ms with
  | nil => intro ws wm nodes; rfl
  | cons m ms ih =>
    intro ws wm nodes
    have hb : bound (Position.move pos m) ws d nodes =
        boundFuel fuel (Position.move pos m) ws nodes := by
      rw [bound, hd]
    simp only [List.foldl_cons, boundRec, hb]
    split <;> exact ih _ _ _

theorem boundRec_fst_le (pos : Position) (d : Int) :
    ∀ (ms : List Move) (ws : Int) (wm : Move) (nodes : Nat),
      (boundRec pos d ms ws wm nodes).1 ≤ ws := by
  intro ms
  induction ms with
  | nil => intro ws wm nodes; exact le_refl ws
  | cons m ms ih =>
    intro ws wm nodes
    simp only [boundRec]
    split
    · exact le_trans (ih _ _ _) (le_of_lt (by assumption))
    · exact ih _ _ _

/-- Claim C1: `bound(pos, targetBound, depth)`.  For `depth <= 0` it
returns the position's static score, the zero move and one counted node.
For `depth > 0` it runs the move loop `boundRec`: every generated move's
successor (whose stored score is the negation of `pos.score` plus the
delta, last conjunct) is evaluated by a recursive `bound` call at
`depth - 1`, the minimum score seen is tracked starting from
`targetBound` (so the result never exceeds it) together with the move
achieving it, and the current minimum is the bound passed down. -/
theorem c1_bound_spec : ∀ (pos : Position) (gamma depth : Int) (nodes : Nat),
    (depth ≤ 0 → bound pos gamma depth nodes = (pos.score, Move.mk 0 0, nodes + 1)) ∧
    (0 < depth →
      bound pos gamma depth nodes =
        boundRec pos (depth - 1) (Position.moves pos) gamma (Move.mk 0 0) (nodes + 1) ∧
      (bound pos gamma depth nodes).1 ≤ gamma) ∧
    (∀ m : Move, (Position.move pos m).score = -(pos.score + Position.value pos m)) := by
  intro pos gamma depth nodes
  refine ⟨?_, ?_, ?_⟩
  · intro hle
    have h0 : depth.toNat = 0 := by omega
    rw [bound, h0, boundFuel]
  · intro hpos
    obtain ⟨k, hk⟩ : ∃ k : Nat, depth.toNat = k + 1 := ⟨depth.toNat - 1, by omega⟩
    have hk1 : (depth - 1).toNat = k := by omega
    have heq : bound pos gamma depth nodes =
        boundRec pos (depth - 1) (Position.moves pos) gamma (Move.mk 0 0) (nodes + 1) := by
      rw [bound, hk, boundFuel]
      exact boundFuel_foldl_eq_boundRec pos k (depth - 1) hk1 _ _ _ _
    exact ⟨heq, by rw [heq]; exact boundRec_fst_le pos (depth - 1) _ _ _ _⟩
  · intro m
    simp [Position.move, Position.flip]

theorem bound_nodes_at_depth (pos : Position) (depth : Nat) (h : 1 ≤ depth) :
    (bound pos (3 * MateValue) (depth : Int) (cumNodes pos (depth - 1))).2.2 =
      cumNodes pos depth := by
  cases depth with
  | zero => omega
  | succ d =>
    have hcast : ((d + 1 : Nat) : Int) = (d : Int) + 1 := by push_cast; ring
    rw [hcast]
    rfl

theorem searchStep_spec (pos : Position) (maxNodes : Int) :
    ∀ (fuel depth : Nat) (wm : Move), 1 ≤ depth →
      ∃ D : Nat, depth ≤ D ∧ D ≤ depth + fuel ∧
        searchStep pos maxNodes (fuel + 1) depth wm (cumNodes pos (depth - 1)) =
          depthMove pos D ∧
        (∀ d : Nat, depth ≤ d → d < D → (cumNodes pos d : Int) < maxNodes) ∧
        (D < depth + fuel → maxNodes ≤ (cumNodes pos D : Int)) := by
  intro fuel
  induction fuel with
  | zero =>
    intro depth wm hdep
    refine ⟨depth, le_refl depth, by omega, ?_, by omega, by omega⟩
    rw [searchStep]
    rw [bound_nodes_at_depth pos depth hdep]
    split
    · rfl
    · rw [searchStep]
      rfl
  | succ f ih =>
    intro depth wm hdep
    rw [searchStep, bound_nodes_at_depth pos depth hdep]
    by_cases hstop : maxNodes ≤ ((cumNodes pos depth : Nat) : Int)
    · refine ⟨depth, le_refl depth, by omega, ?_, by omega, fun _ => hstop⟩
      rw [if_pos hstop]
      rfl
    · rw [if_neg hstop]
      have hd1 : depth + 1 - 1 = depth := by omega
      obtain ⟨D, hD1, hD2, hD3, hD4, hD5⟩ :=
        ih (depth + 1) (bound pos (3 * MateValue) (depth : Int)
          (cumNodes pos (depth - 1))).2.1 (by omega)
      rw [hd1] at hD3
      refine ⟨D, by omega, by omega, hD3, ?_, by omega⟩
      intro d hd hdD
      rcases Nat.eq_or_lt_of_le hd with heq | hlt
      · rw [← heq]; omega
      · exact hD4 d (by omega) hdD

/-- Claim C3: `Search(pos, maxNodes)` runs `bound` at depths 1, 2, ...
with the reset window `3*MateValue`, always keeps the move of the most
recent depth, checks the node budget only between depths, and returns the
kept move of the first depth `D` whose between-depth check finds the
cumulative node count at or above the budget (every earlier check was
below budget); only the sentinel cap at depth 98 can end the loop with
the budget not yet reached. -/
theorem c3_search_budget : ∀ (pos : Position) (maxNodes : Int),
    ∃ D : Nat, 1 ≤ D ∧ D ≤ 98 ∧
      Search pos maxNodes = depthMove pos D ∧
      (∀ d : Nat, 1 ≤ d → d < D → (cumNodes pos d : Int) < maxNodes) ∧
      (D < 98 → maxNodes ≤ (cumNodes pos D : Int)) := by
  intro pos maxNodes
  obtain ⟨D, hD1, hD2, hD3, hD4, hD5⟩ := searchStep_spec pos maxNodes 97 1 (Move.mk 0 0) le_rfl
  exact ⟨D, hD1, by omega, hD3, fun d h1 h2 => hD4 d h1 h2, fun h => hD5 (by omega)⟩

theorem ours_iff (p : Piece) : Piece.ours p = true ↔
    p = 'P' ∨ p = 'N' ∨ p = 'B' ∨ p = 'R' ∨ p = 'Q' ∨ p = 'K' := by
  constructor
  · intro h
    by_contra hn
    push_neg at hn
    obtain ⟨h1, h2, h3, h4, h5, h6⟩ := hn
    unfold Piece.ours Piece.value at h
    rw [if_neg h1, if_neg h2, if_neg h3, if_neg h4, if_neg h5, if_neg h6] at h
    simp at h
  · intro h
    rcases h with rfl | rfl | rfl | rfl | rfl | rfl <;> decide

theorem pieceDirs_ne_zero (p : Piece) (d : Int) (hd : d ∈ pieceDirs p) : d ≠ 0 := by
  by_cases h : p = 'P' ∨ p = 'N' ∨ p = 'B' ∨ p = 'R' ∨ p = 'Q' ∨ p = 'K'
  · rcases h with rfl | rfl | rfl | rfl | rfl | rfl <;>
      (simp [pieceDirs, N, E, S, W] at hd; omega)
  · push_neg at h
    obtain ⟨h1, h2, h3, h4, h5, h6⟩ := h
    unfold pieceDirs at hd
    rw [if_neg h1, if_neg h2, if_neg h3, if_neg h4, if_neg h5, if_neg h6] at hd
    simp at hd

theorem read_ne_space (b : Board) (j : Int) (h : Board.read b j ≠ ' ') :
    0 ≤ j ∧ j < 120 := by
  by_contra hc
  unfold Board.read at h
  rw [dif_neg hc] at h
  exact h rfl

theorem mem_rayMoves (pos : Position) (p : Piece) (i d : Int) :
    ∀ (fuel : Nat) (j0 : Int), (∃ t0 : Nat, j0 = i + (t0 + 1) * d) →
      ∀ m : Move, m ∈ rayMoves pos p i d fuel j0 →
      ((∃ t : Nat, m.to_ = i + (t + 1) * d) ∧ m.from_ = i ∧
        Board.read pos.board m.to_ ≠ ' ' ∧
        ¬(Board.read pos.board m.to_ ≠ '.' ∧ Piece.ours (Board.read pos.board m.to_) = true) ∧
        (p = 'P' → (d = N + W ∨ d = N + E) →
          ¬(Board.read pos.board m.to_ = '.' ∧ m.to_ ≠ pos.ep ∧ m.to_ ≠ pos.kp ∧
            m.to_ ≠ pos.kp - 1 ∧ m.to_ ≠ pos.kp + 1)) ∧
        ((p = 'P' ∨ p = 'N' ∨ p = 'K') → m.to_ = j0)) ∨
      (∃ j : Int, m = Move.mk (j + E) (j + W) ∧ i = A1 ∧
        Board.read pos.board (j + E) = 'K' ∧ pos.wc.1 = true ∧
        Board.read pos.board j = '.' ∧ p ≠ 'P' ∧ p ≠ 'N' ∧ p ≠ 'K' ∧
        ∃ t : Nat, j = i + (t + 1) * d) ∨
      (∃ j : Int, m = Move.mk (j + W) (j + E) ∧ i = H1 ∧
        Board.read pos.board (j + W) = 'K' ∧ pos.wc.2 = true ∧
        Board.read pos.board j = '.' ∧ p ≠ 'P' ∧ p ≠ 'N' ∧ p ≠ 'K' ∧
        ∃ t : Nat, j = i + (t + 1) * d) := by
  intro fuel
  induction fuel with
  | zero =>
    intro j0 hj0 m hm
    simp [rayMoves] at hm
  | succ fuel ih =>
    intro j0 hj0 m hm
    obtain ⟨t0, ht0⟩ := hj0
    simp only [rayMoves] at hm
    by_cases hblock : Board.read pos.board j0 = ' ' ∨
        (Board.read pos.board j0 ≠ '.' ∧ Piece.ours (Board.read pos.board j0) = true)
    · rw [if_pos hblock] at hm
      simp at hm
    · rw [if_neg hblock] at hm
      by_cases hp1 : p = 'P' ∧ (d = N ∨ d = N + N) ∧ Board.read pos.board j0 ≠ '.'
      · rw [if_pos hp1] at hm; simp at hm
      · rw [if_neg hp1] at hm
        by_cases hp2 : p = 'P' ∧ d = N + N ∧
            (i < A1 + N ∨ Board.read pos.board (i + N) ≠ '.')
        · rw [if_pos hp2] at hm; simp at hm
        · rw [if_neg hp2] at hm
          by_cases hp3 : p = 'P' ∧ (d = N + W ∨ d = N + E) ∧
              Board.read pos.board j0 = '.' ∧ j0 ≠ pos.ep ∧ j0 ≠ pos.kp ∧
              j0 ≠ pos.kp - 1 ∧ j0 ≠ pos.kp + 1
          · rw [if_pos hp3] at hm; simp at hm
          · rw [if_neg hp3] at hm
            push_neg at hblock
            rcases List.mem_cons.mp hm with heq | htail
            · subst heq
              left
              refine ⟨⟨t0, ht0⟩, rfl, hblock.1, ?_, ?_, fun _ => rfl⟩
              · intro hc
                exact absurd (hblock.2 hc.1) (by simp [hc.2])
              · intro hP hdiag hc
                exact hp3 ⟨hP, hdiag, hc.1, hc.2.1, hc.2.2.1, hc.2.2.2.1, hc.2.2.2.2⟩
            · by_cases hstop : p = 'P' ∨ p = 'N' ∨ p = 'K' ∨
                  (Board.read pos.board j0 ≠ ' ' ∧ Board.read pos.board j0 ≠ '.' ∧
                    Piece.ours (Board.read pos.board j0) = false)
              · rw [if_pos hstop] at htail
                simp at htail
              · rw [if_neg hstop] at htail
                push_neg at hstop
                obtain ⟨hsP, hsN, hsK, hsCap⟩ := hstop
                have hdot : Board.read pos.board j0 = '.' := by
                  by_contra hne
                  have hofalse : Piece.ours (Board.read pos.board j0) = false := by
                    exact Bool.eq_false_iff.mpr (hblock.2 hne)
                  exact absurd hofalse (hsCap hblock.1 hne)
                rcases List.mem_append.mp htail with hAB | hrec
                · rcases List.mem_append.mp hAB with hA | hB
                  · by_cases hcA : i = A1 ∧ Board.read pos.board (j0 + E) = 'K' ∧
                        pos.wc.1 = true
                    · rw [if_pos hcA] at hA
                      simp only [List.mem_singleton] at hA
                      subst hA
                      right; left
                      exact ⟨j0, rfl, hcA.1, hcA.2.1, hcA.2.2, hdot, hsP, hsN, hsK, t0, ht0⟩
                    · rw [if_neg hcA] at hA
                      simp at hA
                  · by_cases hcB : i = H1 ∧ Board.read pos.board (j0 + W) = 'K' ∧
                        pos.wc.2 = true
                    · rw [if_pos hcB] at hB
                      simp only [List.mem_singleton] at hB
                      subst hB
                      right; right
                      exact ⟨j0, rfl, hcB.1, hcB.2.1, hcB.2.2, hdot, hsP, hsN, hsK, t0, ht0⟩
                    · rw [if_neg hcB] at hB
                      simp at hB
                · have hj0' : j0 + d = i + ((t0 + 1 : Nat) + 1) * d := by
                    rw [ht0]; push_cast; ring
                  rcases ih (j0 + d) ⟨t0 + 1, hj0'⟩ m hrec with hmain | hcast
                  · left
                    refine ⟨hmain.1, hmain.2.1, hmain.2.2.1, hmain.2.2.2.1,
                      hmain.2.2.2.2.1, ?_⟩
                    intro hPNK
                    rcases hPNK with h | h | h
                    · exact absurd h hsP
                    · exact absurd h hsN
                    · exact absurd h hsK
                  · exact Or.inr hcast

theorem mem_moves_decomp (pos : Position) (m : Move) (hm : m ∈ Position.moves pos) :
    ∃ index : Nat, index < 120 ∧
      Piece.ours (Board.read pos.board (index : Int)) = true ∧
      ∃ d, d ∈ pieceDirs (Board.read pos.board (index : Int)) ∧
        m ∈ rayMoves pos (Board.read pos.board (index : Int)) (index : Int) d 120
          ((index : Int) + d) := by
  unfold Position.moves at hm
  simp only [List.mem_flatMap, List.mem_range] at hm
  obtain ⟨index, hidx, hmem⟩ := hm
  by_cases ho : Piece.ours (Board.read pos.board (index : Int)) = true
  · rw [if_pos ho] at hmem
    simp only [List.mem_flatMap] at hmem
    obtain ⟨d, hd, hray⟩ := hmem
    exact ⟨index, hidx, ho, d, hd, hray⟩
  · rw [if_neg ho] at hmem
    simp at hmem

theorem mem_moves_cases (pos : Position) (m : Move) (hm : m ∈ Position.moves pos) :
    (Piece.ours (Board.read pos.board m.from_) = true ∧
      0 ≤ m.from_ ∧ m.from_ < 120 ∧ m.to_ ≠ m.from_ ∧
      Board.read pos.board m.to_ ≠ ' ' ∧
      ¬(Board.read pos.board m.to_ ≠ '.' ∧ Piece.ours (Board.read pos.board m.to_) = true) ∧
      (Board.read pos.board m.from_ = 'P' →
        (m.to_ - m.from_ = N + W ∨ m.to_ - m.from_ = N + E) →
        ¬(Board.read pos.board m.to_ = '.' ∧ m.to_ ≠ pos.ep ∧ m.to_ ≠ pos.kp ∧
          m.to_ ≠ pos.kp - 1 ∧ m.to_ ≠ pos.kp + 1)) ∧
      ¬(Board.read pos.board m.from_ = 'K' ∧ (m.to_ - m.from_ = -2 ∨ m.to_ - m.from_ = 2))) ∨
    (Board.read pos.board m.from_ = 'K' ∧ m.to_ = m.from_ - 2 ∧ pos.wc.1 = true ∧
      Board.read pos.board (m.from_ - 1) = '.' ∧
      (Board.read pos.board A1 = 'B' ∨ Board.read pos.board A1 = 'R' ∨
        Board.read pos.board A1 = 'Q') ∧
      ∃ d, d ∈ pieceDirs (Board.read pos.board A1) ∧
        ∃ t : Nat, m.from_ - 1 = A1 + ((t : Int) + 1) * d) ∨
    (Board.read pos.board m.from_ = 'K' ∧ m.to_ = m.from_ + 2 ∧ pos.wc.2 = true ∧
      Board.read pos.board (m.from_ + 1) = '.' ∧
      (Board.read pos.board H1 = 'B' ∨ Board.read pos.board H1 = 'R' ∨
        Board.read pos.board H1 = 'Q') ∧
      ∃ d, d ∈ pieceDirs (Board.read pos.board H1) ∧
        ∃ t : Nat, m.from_ + 1 = H1 + ((t : Int) + 1) * d) := by
  obtain ⟨index, hidx, ho, d, hd, hray⟩ := mem_moves_decomp pos m hm
  have hd0 : d ≠ 0 := pieceDirs_ne_zero _ d hd
  have hstart : ∃ t0 : Nat, (index : Int) + d = (index : Int) + ((t0 : Int) + 1) * d :=
    ⟨0, by push_cast; ring⟩
  rcases mem_rayMoves pos _ _ d 120 ((index : Int) + d) hstart m hray with hmain | hcastA | hcastB
  · obtain ⟨⟨t, ht⟩, hfrom, hsp, hown, hdiag, hstep1⟩ := hmain
    left
    have hprod : ((t : Int) + 1) * d ≠ 0 := mul_ne_zero (by omega) hd0
    refine ⟨by rw [hfrom]; exact ho, by omega, by omega, by
      intro hc
      apply hprod
      omega, hsp, hown, ?_, ?_⟩
    · intro hP hdel
      have hPp : Board.read pos.board (index : Int) = 'P' := by rw [← hfrom]; exact hP
      have hto : m.to_ = (index : Int) + d := hstep1 (Or.inl hPp)
      have hdd : d = N + W ∨ d = N + E := by
        rcases hdel with h | h
        · left; omega
        · right; omega
      exact hdiag hPp hdd
    · intro hc
      have hKp : Board.read pos.board (index : Int) = 'K' := by rw [← hfrom]; exact hc.1
      have hto : m.to_ = (index : Int) + d := hstep1 (Or.inr (Or.inr hKp))
      rw [hKp] at hd
      simp [pieceDirs, N, E, S, W] at hd
      rcases hc.2 with h | h <;> omega
  · obtain ⟨j, hmeq, hiA1, hK, hwc, hdotj, hsP, hsN, hsK, t, ht⟩ := hcastA
    right; left
    subst hmeq
    simp only [E, W] at hK hdotj ⊢
    rw [hiA1] at ho hd ht hsP hsN hsK
    have hfrom1 : j + 1 - 1 = j := by ring
    have hto1 : j + -1 = j + 1 - 2 := by ring
    refine ⟨hK, hto1, hwc, by rw [hfrom1]; exact hdotj, ?_, d, hd, t, by rw [hfrom1]; exact ht⟩
    rcases (ours_iff _).mp ho with h | h | h | h | h | h
    · exact absurd h hsP
    · exact absurd h hsN
    · exact Or.inl h
    · exact Or.inr (Or.inl h)
    · exact Or.inr (Or.inr h)
    · exact absurd h hsK
  · obtain ⟨j, hmeq, hiH1, hK, hwc, hdotj, hsP, hsN, hsK, t, ht⟩ := hcastB
    right; right
    subst hmeq
    simp only [E, W] at hK hdotj ⊢
    rw [hiH1] at ho hd ht hsP hsN hsK
    have hfrom1 : j + -1 + 1 = j := by ring
    have hto1 : j + 1 = j + -1 + 2 := by ring
    refine ⟨hK, hto1, hwc, by rw [hfrom1]; exact hdotj, ?_, d, hd, t, by rw [hfrom1]; exact ht⟩
    rcases (ours_iff _).mp ho with h | h | h | h | h | h
    · exact absurd h hsP
    · exact absurd h hsN
    · exact Or.inl h
    · exact Or.inr (Or.inl h)
    · exact Or.inr (Or.inr h)
    · exact absurd h hsK

/-- Claim C7: a pawn's diagonal step (direction `N+W` or `N+E`) is in the
generated move list only when the destination is occupied by a piece of
the other side (the source's capture test `capturable`), or equals the
position's en-passant target, or equals the king-passant target or one of
its two horizontally adjacent squares; a diagonal step onto an empty
square meeting none of these is never emitted. -/
theorem c7_pawn_diagonal (pos : Position) (m : Move) (hm : m ∈ Position.moves pos)
    (hP : Board.read pos.board m.from_ = 'P')
    (hdel : m.to_ - m.from_ = N + W ∨ m.to_ - m.from_ = N + E) :
    capturable (Board.read pos.board m.to_) ∨ m.to_ = pos.ep ∨ m.to_ = pos.kp ∨
      m.to_ = pos.kp - 1 ∨ m.to_ = pos.kp + 1 := by
  rcases mem_moves_cases pos m hm with hmain | hcA | hcB
  · obtain ⟨ho, h0, h1, hne, hsp, hown, hdiag, hking⟩ := hmain
    have hd := hdiag hP hdel
    by_cases hdot : Board.read pos.board m.to_ = '.'
    · right
      by_contra hc
      push_neg at hc
      exact hd ⟨hdot, hc.1, hc.2.1, hc.2.2.1, hc.2.2.2⟩
    · left
      refine ⟨hsp, hdot, ?_⟩
      rcases Bool.eq_false_or_eq_true (Piece.ours (Board.read pos.board m.to_)) with h | h
      · exact absurd ⟨hdot, h⟩ hown
      · exact h
  · rw [hcA.1] at hP
    exact absurd hP (by decide)
  · rw [hcB.1] at hP
    exact absurd hP (by decide)

theorem read_eq_cell (b : Board) (j : Int) (h0 : 0 ≤ j) (h1 : j < 120) :
    Board.read b j = b ⟨j.toNat, by omega⟩ := by
  unfold Board.read
  rw [dif_pos ⟨h0, h1⟩]

/-- Claim C10: for a position whose sentinel border is intact (so its own
pieces all lie inside the 8x8 playing area), every generated move other
than the two castling-emitted king two-square steps lands on a cell that
holds either the empty marker or a piece not owned by the side to move:
the destination is never an off-board sentinel cell, never an own piece,
and lies inside the playing area. -/
theorem c10_move_destinations (pos : Position) (m : Move) (hw : wellFormed pos)
    (hm : m ∈ Position.moves pos)
    (hk : ¬(Board.read pos.board m.from_ = 'K' ∧
      (m.to_ - m.from_ = -2 ∨ m.to_ - m.from_ = 2))) :
    Board.read pos.board m.to_ ≠ ' ' ∧
    Piece.ours (Board.read pos.board m.to_) = false ∧
    onBoard m.to_ := by
  rcases mem_moves_cases pos m hm with hmain | hcA | hcB
  · obtain ⟨ho, h0, h1, hne, hsp, hown, hdiag, hking⟩ := hmain
    have hof : Piece.ours (Board.read pos.board m.to_) = false := by
      rcases Bool.eq_false_or_eq_true (Piece.ours (Board.read pos.board m.to_)) with h | h
      · by_cases hdot : Board.read pos.board m.to_ = '.'
        · rw [hdot] at h
          exact absurd h (by decide)
        · exact absurd ⟨hdot, h⟩ hown
      · exact h
    refine ⟨hsp, hof, ?_⟩
    have hrange := read_ne_space pos.board m.to_ hsp
    by_contra hob
    apply hsp
    rw [read_eq_cell pos.board m.to_ hrange.1 hrange.2]
    apply hw
    rw [show ((m.to_.toNat : Nat) : Int) = m.to_ from Int.toNat_of_nonneg hrange.1]
    exact hob
  · exact absurd ⟨hcA.1, Or.inl (by omega)⟩ hk
  · exact absurd ⟨hcB.1, Or.inr (by omega)⟩ hk

theorem rayMoves_east_castle (pos : Position) (hwc : pos.wc.1 = true) :
    ∀ (k fuel : Nat) (j0 : Int), k < fuel →
      (∀ t : Nat, t ≤ k → Board.read pos.board (j0 + (t : Int)) = '.') →
      Board.read pos.board (j0 + (k : Int) + 1) = 'K' →
      Move.mk (j0 + (k : Int) + 1) (j0 + (k : Int) - 1) ∈ rayMoves pos 'R' A1 E fuel j0 := by
  intro k
  induction k with
  | zero =>
    intro fuel j0 hf hpath hK
    obtain ⟨f, rfl⟩ : ∃ f, fuel = f + 1 := ⟨fuel - 1, by omega⟩
    have hq : Board.read pos.board j0 = '.' := by simpa using hpath 0 (le_refl 0)
    simp only [Nat.cast_zero, add_zero] at hK ⊢
    simp only [rayMoves, hq]
    rw [if_neg (by simp), if_neg (by simp), if_neg (by simp), if_neg (by simp),
      if_neg (by simp), if_pos (⟨trivial, by simpa [E] using hK, hwc⟩ :
        True ∧ Board.read pos.board (j0 + E) = 'K' ∧ pos.wc.1 = true)]
    apply List.mem_cons_of_mem
    apply List.mem_append_left
    apply List.mem_append_left
    simp only [List.mem_singleton, Move.mk.injEq, E, W]
    constructor <;> ring
  | succ k ih =>
    intro fuel j0 hf hpath hK
    obtain ⟨f, rfl⟩ : ∃ f, fuel = f + 1 := ⟨fuel - 1, by omega⟩
    have hq : Board.read pos.board j0 = '.' := by simpa using hpath 0 (by omega)
    simp only [rayMoves, hq]
    rw [if_neg (by simp), if_neg (by simp), if_neg (by simp), if_neg (by simp),
      if_neg (by simp)]
    apply List.mem_cons_of_mem
    apply List.mem_append_right
    have htarget : Move.mk (j0 + ((k + 1 : Nat) : Int) + 1) (j0 + ((k + 1 : Nat) : Int) - 1) =
        Move.mk ((j0 + E) + (k : Int) + 1) ((j0 + E) + (k : Int) - 1) := by
      simp only [Move.mk.injEq, E]
      push_cast
      constructor <;> ring
    rw [htarget]
    apply ih f (j0 + E) (by omega)
    · intro t ht
      have := hpath (t + 1) (by omega)
      rw [show j0 + E + (t : Int) = j0 + ((t + 1 : Nat) : Int) by push_cast [E]; ring]
      exact this
    · rw [show j0 + E + (k : Int) + 1 = j0 + ((k + 1 : Nat) : Int) + 1 by
        simp [E]; ring]
      exact hK

theorem rayMoves_west_castle (pos : Position) (hwc : pos.wc.2 = true) :
    ∀ (k fuel : Nat) (j0 : Int), k < fuel →
      (∀ t : Nat, t ≤ k → Board.read pos.board (j0 - (t : Int)) = '.') →
      Board.read pos.board (j0 - (k : Int) - 1) = 'K' →
      Move.mk (j0 - (k : Int) - 1) (j0 - (k : Int) + 1) ∈ rayMoves pos 'R' H1 W fuel j0 := by
  intro k
  induction k with
  | zero =>
    intro fuel j0 hf hpath hK
    obtain ⟨f, rfl⟩ : ∃ f, fuel = f + 1 := ⟨fuel - 1, by omega⟩
    have hq : Board.read pos.board j0 = '.' := by simpa using hpath 0 (le_refl 0)
    simp only [Nat.cast_zero, sub_zero] at hK ⊢
    simp only [rayMoves, hq]
    rw [if_neg (by simp), if_neg (by simp), if_neg (by simp), if_neg (by simp),
      if_neg (by simp),
      if_neg (show ¬(H1 = A1 ∧ Board.read pos.board (j0 + E) = 'K' ∧ pos.wc.1 = true) from
        fun h => absurd h.1 (by decide)),
      if_pos (⟨trivial, by
        rw [show j0 + W = j0 - 1 by simp [W]; ring]
        exact hK, hwc⟩ :
        True ∧ Board.read pos.board (j0 + W) = 'K' ∧ pos.wc.2 = true)]
    apply List.mem_cons_of_mem
    apply List.mem_append_left
    apply List.mem_append_right
    simp only [List.mem_singleton, Move.mk.injEq, E, W]
    constructor <;> ring
  | succ k ih =>
    intro fuel j0 hf hpath hK
    obtain ⟨f, rfl⟩ : ∃ f, fuel = f + 1 := ⟨fuel - 1, by omega⟩
    have hq : Board.read pos.board j0 = '.' := by simpa using hpath 0 (by omega)
    simp only [rayMoves, hq]
    rw [if_neg (by simp), if_neg (by simp), if_neg (by simp), if_neg (by simp),
      if_neg (by simp)]
    apply List.mem_cons_of_mem
    apply List.mem_append_right
    have htarget : Move.mk (j0 - ((k + 1 : Nat) : Int) - 1) (j0 - ((k + 1 : Nat) : Int) + 1) =
        Move.mk ((j0 + W) - (k : Int) - 1) ((j0 + W) - (k : Int) + 1) := by
      simp only [Move.mk.injEq, W]
      push_cast
      constructor <;> ring
    rw [htarget]
    apply ih f (j0 + W) (by omega)
    · intro t ht
      have := hpath (t + 1) (by omega)
      rw [show j0 + W - (t : Int) = j0 - ((t + 1 : Nat) : Int) by push_cast [W]; ring]
      exact this
    · rw [show j0 + W - (k : Int) - 1 = j0 - ((k + 1 : Nat) : Int) - 1 by
        simp [W]; ring]
      exact hK

/-- Claim C8: castling moves are exactly the by-products of ray scanning
from a rook home corner.  Emission: scanning east from A1 (a rook there,
queen-side right intact, empty cells up to the ray square, the own king
just east of it) emits the move taking the king two squares toward that
rook, and symmetrically from H1 with the king-side right.  Exactness: any
generated move of a king by two squares has the corresponding right
intact, the passed ray square empty, a scanning own slider on the
corresponding home corner, and a ray of that slider from the corner
reaching the square beside the king — no other castling move is ever
generated. -/
theorem c8_castling_emission : ∀ pos : Position,
    (∀ k : Nat, Board.read pos.board A1 = 'R' → pos.wc.1 = true →
      (∀ t : Nat, t ≤ k → Board.read pos.board (92 + (t : Int)) = '.') →
      Board.read pos.board (93 + (k : Int)) = 'K' →
      Move.mk (93 + (k : Int)) (91 + (k : Int)) ∈ Position.moves pos) ∧
    (∀ k : Nat, Board.read pos.board H1 = 'R' → pos.wc.2 = true →
      (∀ t : Nat, t ≤ k → Board.read pos.board (97 - (t : Int)) = '.') →
      Board.read pos.board (96 - (k : Int)) = 'K' →
      Move.mk (96 - (k : Int)) (98 - (k : Int)) ∈ Position.moves pos) ∧
    (∀ m : Move, m ∈ Position.moves pos → Board.read pos.board m.from_ = 'K' →
      (m.to_ - m.from_ = -2 ∨ m.to_ - m.from_ = 2) →
      ((m.to_ - m.from_ = -2 ∧ pos.wc.1 = true ∧
        Board.read pos.board (m.from_ - 1) = '.' ∧
        (Board.read pos.board A1 = 'B' ∨ Board.read pos.board A1 = 'R' ∨
          Board.read pos.board A1 = 'Q') ∧
        ∃ d, d ∈ pieceDirs (Board.read pos.board A1) ∧
          ∃ t : Nat, m.from_ - 1 = A1 + ((t : Int) + 1) * d) ∨
       (m.to_ - m.from_ = 2 ∧ pos.wc.2 = true ∧
        Board.read pos.board (m.from_ + 1) = '.' ∧
        (Board.read pos.board H1 = 'B' ∨ Board.read pos.board H1 = 'R' ∨
          Board.read pos.board H1 = 'Q') ∧
        ∃ d, d ∈ pieceDirs (Board.read pos.board H1) ∧
          ∃ t : Nat, m.from_ + 1 = H1 + ((t : Int) + 1) * d))) := by
  intro pos
  refine ⟨?_, ?_, ?_⟩
  · intro k hR hwc hpath hK
    have hk26 : (93 : Int) + (k : Int) < 120 :=
      (read_ne_space pos.board _ (by rw [hK]; decide)).2
    unfold Position.moves
    simp only [List.mem_flatMap, List.mem_range]
    refine ⟨91, by omega, ?_⟩
    have h91 : ((91 : Nat) : Int) = A1 := by norm_num [A1]
    rw [h91, if_pos (by rw [hR]; decide)]
    simp only [List.mem_flatMap]
    refine ⟨E, by rw [hR]; decide, ?_⟩
    rw [hR]
    have hmem := rayMoves_east_castle pos hwc k 120 (A1 + E) (by omega) ?_ ?_
    · have : Move.mk (93 + (k : Int)) (91 + (k : Int)) =
          Move.mk (A1 + E + (k : Int) + 1) (A1 + E + (k : Int) - 1) := by
        simp only [Move.mk.injEq, A1, E]
        constructor <;> ring
      rw [this]
      exact hmem
    · intro t ht
      rw [show A1 + E + (t : Int) = 92 + (t : Int) by simp only [A1, E]; ring]
      exact hpath t ht
    · rw [show A1 + E + (k : Int) + 1 = 93 + (k : Int) by simp only [A1, E]; ring]
      exact hK
  · intro k hR hwc hpath hK
    have hk0 : (0 : Int) ≤ 96 - (k : Int) :=
      (read_ne_space pos.board _ (by rw [hK]; decide)).1
    unfold Position.moves
    simp only [List.mem_flatMap, List.mem_range]
    refine ⟨98, by omega, ?_⟩
    have h98 : ((98 : Nat) : Int) = H1 := by norm_num [H1]
    rw [h98, if_pos (by rw [hR]; decide)]
    simp only [List.mem_flatMap]
    refine ⟨W, by rw [hR]; decide, ?_⟩
    rw [hR]
    have hmem := rayMoves_west_castle pos hwc k 120 (H1 + W) (by omega) ?_ ?_
    · have : Move.mk (96 - (k : Int)) (98 - (k : Int)) =
          Move.mk (H1 + W - (k : Int) - 1) (H1 + W - (k : Int) + 1) := by
        simp only [Move.mk.injEq, H1, W]
        constructor <;> ring
      rw [this]
      exact hmem
    · intro t ht
      rw [show H1 + W - (t : Int) = 97 - (t : Int) by simp only [H1, W]; ring]
      exact hpath t ht
    · rw [show H1 + W - (k : Int) - 1 = 96 - (k : Int) by simp only [H1, W]; ring]
      exact hK
  · intro m hm hK hdel
    rcases mem_moves_cases pos m hm with hmain | hcA | hcB
    · exact absurd ⟨hK, hdel⟩ hmain.2.2.2.2.2.2.2
    · exact Or.inl ⟨by omega, hcA.2.2.1, hcA.2.2.2.1, hcA.2.2.2.2.1, hcA.2.2.2.2.2⟩
    · exact Or.inr ⟨by omega, hcB.2.2.1, hcB.2.2.2.1, hcB.2.2.2.2.1, hcB.2.2.2.2.2⟩

/-- Witness for C7 at a concrete input: in `posA` the generated pawn
capture 85 → 74 satisfies the diagonal-step condition (the destination
holds the enemy pawn). -/
theorem c7_pawn_diagonal_witness :
    capturable (Board.read posA.board 74) ∨ (74 : Int) = posA.ep ∨ (74 : Int) = posA.kp ∨
      (74 : Int) = posA.kp - 1 ∨ (74 : Int) = posA.kp + 1 :=
  c7_pawn_diagonal posA (Move.mk 85 74) (by decide) (by decide) (by decide)

/-- Witness for C10 at a concrete input: in the well-formed `posA` the
generated move 85 → 75 lands inside the playing area on a non-own,
non-sentinel cell. -/
theorem c10_move_destinations_witness :
    Board.read posA.board 75 ≠ ' ' ∧ Piece.ours (Board.read posA.board 75) = false ∧
      onBoard 75 :=
  c10_move_destinations posA (Move.mk 85 75) (by decide) (by decide) (by decide)

/-- Witness for C8 at a concrete input: in `posB` (rook on A1, king on
e1, queen-side right intact) the queen-side castling move 95 → 93 is
generated. -/
theorem c8_castling_emission_witness : Move.mk 95 93 ∈ Position.moves posB := by
  have h := (c8_castling_emission posB).1 2 (by decide) (by decide) (by decide) (by decide)
  exact h

theorem pst_nonkey (q : Piece) (h1 : q ≠ 'P') (h2 : q ≠ 'N') (h3 : q ≠ 'B')
    (h4 : q ≠ 'R') (h5 : q ≠ 'Q') (h6 : q ≠ 'K') (y : Int) : pst q y = 0 := by
  unfold pst
  rw [if_neg h1, if_neg h2, if_neg h3, if_neg h4, if_neg h5, if_neg h6]
  split <;> simp

theorem contrib_dot (y : Int) : contrib '.' y = 0 := by
  simp [contrib, Piece.ours, Piece.value]

theorem contrib_space (y : Int) : contrib ' ' y = 0 := by
  simp [contrib, Piece.ours, Piece.value]

theorem contrib_ours (q : Piece) (h : Piece.ours q = true) (y : Int) :
    contrib q y = pst q y := by
  unfold contrib
  rw [if_pos h]

theorem contrib_enemy (q : Piece) (h1 : q ≠ '.') (h2 : q ≠ ' ')
    (h3 : Piece.ours q = false) (y : Int) :
    contrib q y = -pst (Piece.flip q) (119 - y) := by
  unfold contrib
  rw [if_neg (by simp [h3]), if_pos ⟨h1, h2⟩]

set_option maxRecDepth 10000 in
theorem contrib_flip (q : Piece) (x : Int) :
    contrib (Piece.flip q) (119 - x) = -contrib q x := by
  by_cases h : q ∈ (Piece.caseTags ++ ['.', ' '])
  · fin_cases h <;>
      simp [contrib, Piece.flip, Piece.ours, Piece.value, sub_sub_cancel]
  · simp only [List.mem_append, List.mem_cons, List.not_mem_nil, or_false, not_or,
      Piece.caseTags] at h
    obtain ⟨⟨g1, g2, g3, g4, g5, g6, g7, g8, g9, g10, g11, g12⟩, gdot, gspace⟩ := h
    have hflip : Piece.flip q = q := by
      apply piece_flip_default
      simp only [Piece.caseTags, List.mem_cons, List.not_mem_nil, or_false, not_or]
      exact ⟨g1, g2, g3, g4, g5, g6, g7, g8, g9, g10, g11, g12⟩
    have ho : Piece.ours q = false := by
      rcases Bool.eq_false_or_eq_true (Piece.ours q) with ht | hf
      · rcases (ours_iff q).mp ht with h | h | h | h | h | h <;> simp_all
      · exact hf
    have hz : ∀ y, pst q y = 0 := pst_nonkey q g1 g2 g3 g4 g5 g6
    rw [hflip]
    rw [contrib_enemy q gdot gspace ho x, contrib_enemy q gdot gspace ho (119 - x)]
    rw [hflip, hz, hz]
    simp

theorem staticScore_flip (b : Board) : staticScore (Board.flip b) = -staticScore b := by
  unfold staticScore
  have h1 : ∀ i : Fin 120, contrib (Board.flip b i) ((i : Nat) : Int) =
      -contrib (b i.rev) (((i.rev : Nat)) : Int) := by
    intro i
    have hval2 : ((i : Nat) : Int) = 119 - (((i.rev : Nat)) : Int) := by
      have := i.isLt
      simp only [Fin.val_rev]
      omega
    have hflip : Board.flip b i = Piece.flip (b i.rev) := rfl
    rw [hflip, hval2]
    exact contrib_flip (b i.rev) (((i.rev : Nat)) : Int)
  calc ∑ i : Fin 120, contrib (Board.flip b i) ((i : Nat) : Int)
      = ∑ i : Fin 120, -contrib (b i.rev) (((i.rev : Nat)) : Int) :=
        Finset.sum_congr rfl (fun i _ => h1 i)
    _ = ∑ i : Fin 120, -contrib (b i) ((i : Nat) : Int) :=
        Fintype.sum_equiv Fin.revPerm _ _ (fun x => rfl)
    _ = -∑ i : Fin 120, contrib (b i) ((i : Nat) : Int) := by
        rw [Finset.sum_neg_distrib]

theorem read_write_self (b : Board) (x : Int) (h0 : 0 ≤ x) (h1 : x < 120) (c : Piece) :
    Board.read (Board.write b x c) x = c := by
  unfold Board.read Board.write
  rw [dif_pos ⟨h0, h1⟩, dif_pos ⟨h0, h1⟩, Function.update_same]

theorem read_write_ne (b : Board) (x : Int) (c : Piece) (y : Int) (hne : y ≠ x) :
    Board.read (Board.write b x c) y = Board.read b y := by
  unfold Board.read Board.write
  by_cases hx : 0 ≤ x ∧ x < 120
  · rw [dif_pos hx]
    by_cases hy : 0 ≤ y ∧ y < 120
    · rw [dif_pos hy, dif_pos hy]
      apply Function.update_noteq
      intro hc
      apply hne
      have hval := congrArg Fin.val hc
      simp only [] at hval
      omega
    · rw [dif_neg hy, dif_neg hy]
  · rw [dif_neg hx]

theorem staticScore_write (b : Board) (x : Int) (h0 : 0 ≤ x) (h1 : x < 120) (c : Piece) :
    staticScore (Board.write b x c) =
      staticScore b + contrib c x - contrib (Board.read b x) x := by
  have hxrange : 0 ≤ x ∧ x < 120 := ⟨h0, h1⟩
  set xf : Fin 120 := ⟨x.toNat, by omega⟩ with hxf
  have hw : Board.write b x c = Function.update b xf c := by
    unfold Board.write
    rw [dif_pos hxrange]
  have hr : Board.read b x = b xf := by
    unfold Board.read
    rw [dif_pos hxrange]
  have hcast : ((xf : Nat) : Int) = x := by
    simp only [hxf]
    omega
  unfold staticScore
  rw [hw, hr]
  rw [← Finset.add_sum_erase Finset.univ
    (fun i : Fin 120 => contrib (Function.update b xf c i) ((i : Nat) : Int))
    (Finset.mem_univ xf)]
  rw [← Finset.add_sum_erase Finset.univ
    (fun i : Fin 120 => contrib (b i) ((i : Nat) : Int)) (Finset.mem_univ xf)]
  have herase : ∑ i ∈ Finset.univ.erase xf, contrib (Function.update b xf c i) ((i : Nat) : Int) =
      ∑ i ∈ Finset.univ.erase xf, contrib (b i) ((i : Nat) : Int) :=
    Finset.sum_congr rfl (fun i hi => by
      rw [Function.update_noteq (Finset.ne_of_mem_erase hi)])
  rw [herase, Function.update_same, hcast]
  ring

/-- Claim C2 (amended): the score invariant holds with the opposite sign
convention and away from the three divergences the code forces.  For any
generated move `m` of a position whose stored score equals the full
rescan, provided no king-passant proximity bonus fires
(`|m.to - kp| >= 2`), the move is not a king two-square step (the
castling board edit clears the wrong rook corner), and, when the move is
a pawn landing on the en-passant square, the bypassed cell really holds
the enemy pawn — the score stored in `pos.Move(m)` equals a from-scratch
rescan of its board, and equivalently `value(pos, m)` equals the
*negated* rescan of `pos.Move(m)` minus `pos.score` (not the rescan minus
the negation of `pos.score`, as claimed). -/
theorem c2_score_rescan (pos : Position) (m : Move)
    (hm : m ∈ Position.moves pos)
    (hs : pos.score = staticScore pos.board)
    (hkp : ¬|m.to_ - pos.kp| < 2)
    (hcastle : ¬(Board.read pos.board m.from_ = 'K' ∧ |m.from_ - m.to_| = 2))
    (hep : Board.read pos.board m.from_ = 'P' → m.to_ = pos.ep →
      Board.read pos.board (m.to_ + S) = 'p') :
    staticScore (Position.move pos m).board = (Position.move pos m).score ∧
    Position.value pos m = -staticScore (Position.move pos m).board - pos.score := by
  have hscore : (Position.move pos m).score = -(pos.score + Position.value pos m) := by
    simp [Position.move, Position.flip]
  have hmain : staticScore (Position.move pos m).board = (Position.move pos m).score := by
    rcases mem_moves_cases pos m hm with hmain | hcA | hcB
    · obtain ⟨ho, hf0, hf1, hne, hsp, hown, _hdiag, _hking⟩ := hmain
      have hjr := read_ne_space pos.board m.to_ hsp
      have hc2 : ¬(Board.read pos.board m.from_ = 'K' ∧ |m.to_ - m.from_| = 2) := by
        intro hh
        exact hcastle ⟨hh.1, by rw [abs_sub_comm]; exact hh.2⟩
      have hfe : m.from_ ≠ m.to_ := fun h => hne h.symm
      have hbase : staticScore
          (Board.write (Board.write pos.board m.to_ (Board.read pos.board m.from_))
            m.from_ '.') =
          staticScore pos.board + pst (Board.read pos.board m.from_) m.to_
            - contrib (Board.read pos.board m.to_) m.to_
            - pst (Board.read pos.board m.from_) m.from_ := by
        rw [staticScore_write _ m.from_ hf0 hf1 '.',
          staticScore_write _ m.to_ hjr.1 hjr.2 _,
          read_write_ne pos.board m.to_ _ m.from_ hfe,
          contrib_dot, contrib_ours _ ho, contrib_ours _ ho]
        ring
      have hcap : ∀ X : Int,
          (if Board.read pos.board m.to_ ≠ '.' ∧ Board.read pos.board m.to_ ≠ ' ' ∧
              Piece.ours (Board.read pos.board m.to_) = false then
            X + pst (Piece.flip (Board.read pos.board m.to_)) (119 - m.to_)
          else X) = X - contrib (Board.read pos.board m.to_) m.to_ := by
        intro X
        by_cases hdq : Board.read pos.board m.to_ = '.'
        · rw [if_neg (by simp [hdq]), hdq, contrib_dot]
          ring
        · have hoq : Piece.ours (Board.read pos.board m.to_) = false :=
            Bool.eq_false_iff.mpr (fun ht => hown ⟨hdq, ht⟩)
          rw [if_pos ⟨hdq, hsp, hoq⟩, contrib_enemy _ hdq hsp hoq]
          ring
      rw [hscore, hs]
      simp only [Position.move, Position.flip]
      rw [staticScore_flip, neg_inj]
      simp only [Position.value]
      rw [if_neg hc2, if_neg hkp, if_neg hcastle, hcap]
      by_cases hP : Board.read pos.board m.from_ = 'P'
      · rw [if_pos hP]
        by_cases hepc : m.to_ = pos.ep
        · rw [if_pos hepc,
            if_pos (show Board.read pos.board m.from_ = 'P' ∧ m.to_ = pos.ep from ⟨hP, hepc⟩)]
          have hepS : Board.read pos.board (m.to_ + S) = 'p' := hep hP hepc
          have hepr := read_ne_space pos.board _ (by rw [hepS]; decide)
          have hSj : m.to_ + S ≠ m.to_ := by simp only [S]; omega
          have hSi : m.to_ + S ≠ m.from_ := by
            intro hc
            rw [hc, hP] at hepS
            exact absurd hepS (by decide)
          by_cases hpr : A8 ≤ m.to_ ∧ m.to_ ≤ H8
          · rw [if_pos hpr,
              if_pos (show Board.read pos.board m.from_ = 'P' ∧ A8 ≤ m.to_ ∧ m.to_ ≤ H8 from
                ⟨hP, hpr.1, hpr.2⟩)]
            rw [staticScore_write _ (m.to_ + S) hepr.1 hepr.2 '.',
              read_write_ne _ m.to_ 'Q' _ hSj,
              read_write_ne _ m.from_ '.' _ hSi,
              read_write_ne _ m.to_ _ _ hSj, hepS,
              staticScore_write _ m.to_ hjr.1 hjr.2 'Q',
              read_write_ne _ m.from_ '.' m.to_ hne,
              read_write_self pos.board m.to_ hjr.1 hjr.2,
              hbase, hP,
              contrib_dot,
              contrib_ours 'Q' (by decide),
              contrib_ours 'P' (by decide),
              contrib_enemy 'p' (by decide) (by decide) (by decide),
              show Piece.flip 'p' = 'P' from by decide]
            ring
          · rw [if_neg hpr,
              if_neg (show ¬(Board.read pos.board m.from_ = 'P' ∧ A8 ≤ m.to_ ∧ m.to_ ≤ H8) from
                fun hh => hpr ⟨hh.2.1, hh.2.2⟩)]
            rw [staticScore_write _ (m.to_ + S) hepr.1 hepr.2 '.',
              read_write_ne _ m.from_ '.' _ hSi,
              read_write_ne _ m.to_ _ _ hSj, hepS,
              hbase, hP,
              contrib_dot,
              contrib_enemy 'p' (by decide) (by decide) (by decide),
              show Piece.flip 'p' = 'P' from by decide]
            ring
        · rw [if_neg hepc,
            if_neg (show ¬(Board.read pos.board m.from_ = 'P' ∧ m.to_ = pos.ep) from
              fun hh => hepc hh.2)]
          by_cases hpr : A8 ≤ m.to_ ∧ m.to_ ≤ H8
          · rw [if_pos hpr,
              if_pos (show Board.read pos.board m.from_ = 'P' ∧ A8 ≤ m.to_ ∧ m.to_ ≤ H8 from
                ⟨hP, hpr.1, hpr.2⟩)]
            rw [staticScore_write _ m.to_ hjr.1 hjr.2 'Q',
              read_write_ne _ m.from_ '.' m.to_ hne,
              read_write_self pos.board m.to_ hjr.1 hjr.2,
              hbase, hP,
              contrib_ours 'Q' (by decide),
              contrib_ours 'P' (by decide)]
            ring
          · rw [if_neg hpr,
              if_neg (show ¬(Board.read pos.board m.from_ = 'P' ∧ A8 ≤ m.to_ ∧ m.to_ ≤ H8) from
                fun hh => hpr ⟨hh.2.1, hh.2.2⟩)]
            rw [hbase, hP]
            ring
      · rw [if_neg hP,
          if_neg (show ¬(Board.read pos.board m.from_ = 'P' ∧ m.to_ = pos.ep) from
            fun hh => hP hh.1),
          if_neg (show ¬(Board.read pos.board m.from_ = 'P' ∧ A8 ≤ m.to_ ∧ m.to_ ≤ H8) from
            fun hh => hP hh.1)]
        rw [hbase]
        ring
    · refine absurd ⟨hcA.1, ?_⟩ hcastle
      have h2 : m.from_ - m.to_ = 2 := by omega
      rw [h2]
      decide
    · refine absurd ⟨hcB.1, ?_⟩ hcastle
      have h2 : m.from_ - m.to_ = -2 := by omega
      rw [h2]
      decide
  refine ⟨hmain, ?_⟩
  rw [hmain, hscore]
  ring

set_option maxRecDepth 100000 in
/-- Claim C2, as stated, fails on the code: for the generated pawn move
85 → 75 of `posA` (whose stored score is the full rescan of its board),
`value(pos, m)` does not equal the rescan of `pos.Move(m)` minus the
negation of `pos.score` — the claimed formula has the sign flipped. -/
theorem c2_counterexample :
    Move.mk 85 75 ∈ Position.moves posA ∧
    posA.score = staticScore posA.board ∧
    Position.value posA (Move.mk 85 75) ≠
      staticScore (Position.move posA (Move.mk 85 75)).board - (-posA.score) := by
  refine ⟨by decide, rfl, by decide⟩

set_option maxRecDepth 100000 in
/-- Witness for C2 (amended) at a concrete input: the pawn move 85 → 75
of `posA` satisfies every hypothesis, and the successor's stored score is
its own full rescan. -/
theorem c2_score_rescan_witness :
    staticScore (Position.move posA (Move.mk 85 75)).board =
      (Position.move posA (Move.mk 85 75)).score ∧
    Position.value posA (Move.mk 85 75) =
      -staticScore (Position.move posA (Move.mk 85 75)).board - posA.score :=
  c2_score_rescan posA (Move.mk 85 75) (by decide) rfl (by decide) (by decide) (by decide)
